import Mathlib

set_option maxRecDepth 100000

/-!
Verification of the text segmentation and concurrent translation pipeline
of WikiTruthBot (`wiki_utils.py`).

The Python source is embedded shallowly:
* strings are Lean `String`s (a wrapper around `List Char`), and string
  algorithms are written over `List Char`;
* `str.strip()`, `str.split()` and the two regular expressions used by the
  source (`(?<=[.!?])\s+` and `^(={2,6})\s*(.*?)\s*\1` with `re.MULTILINE`)
  are implemented as explicit character-level scanners reproducing the
  Python semantics (greedy and lazy sub-patterns, backreference, multiline
  anchoring, leftmost non-overlapping match enumeration);
* the external translation call (`basic_translate`, which performs network
  I/O) is an oracle parameter that either returns a string or raises
  (`Except Unit String`); exception handling in the source is embedded as
  matching on that `Except`;
* the `ThreadPoolExecutor` fan-out/fan-in of `translate_text` is embedded
  by an explicit completion order `order : List Nat` (the order in which
  `as_completed` yields the futures) together with the index-keyed result
  map that the source builds, and by a capacity-bounded scheduling step
  relation for the worker-pool claims.
-/

/-- Python whitespace predicate (`str.isspace` on the ASCII range used by
`str.strip`, `str.split` and the regex class `\s`). -/
def pyIsWs (c : Char) : Bool :=
  c = ' ' || c = '\t' || c = '\n' || c = '\r' || c = '\x0b' || c = '\x0c'

/-- Sentence-ending punctuation of the chunker's regex class `[.!?]`. -/
def isPunctSent (c : Char) : Bool :=
  c = '.' || c = '!' || c = '?'

/-- Python `str.strip()` on the character list of a string. -/
def pyStrip (l : List Char) : List Char :=
  ((l.dropWhile pyIsWs).reverse.dropWhile pyIsWs).reverse

/-- Worker for `pySplit`; `cur` holds the current word reversed. -/
def pySplitAux : List Char → List Char → List (List Char)
  | cur, [] => if cur.isEmpty then [] else [cur.reverse]
  | cur, c :: rest =>
    if pyIsWs c then
      if cur.isEmpty then pySplitAux [] rest
      else cur.reverse :: pySplitAux [] rest
    else pySplitAux (c :: cur) rest

/-- Python `str.split()` with no argument: maximal runs of non-whitespace
characters, in order, with no empty words. -/
def pySplit (l : List Char) : List (List Char) :=
  pySplitAux [] l

/-- Worker for `splitSentences`: state machine for
`re.split(r'(?<=[.!?])\s+', text)`.  `prevP` records whether the previous
character was `.`, `!` or `?`; `inSep` is true while consuming a separator
run of whitespace; `cur` holds the current sentence reversed. -/
def splitSentencesAux : Bool → Bool → List Char → List (List Char) → List Char → List (List Char)
  | _, inSep, cur, acc, [] => if inSep then acc ++ [[]] else acc ++ [cur.reverse]
  | prevP, inSep, cur, acc, c :: rest =>
    if inSep then
      if pyIsWs c then splitSentencesAux false true [] acc rest
      else splitSentencesAux (isPunctSent c) false [c] acc rest
    else
      if pyIsWs c && prevP then splitSentencesAux false true [] (acc ++ [cur.reverse]) rest
      else splitSentencesAux (isPunctSent c) false (c :: cur) acc rest

/-- `re.split(r'(?<=[.!?])\s+', text)`: split after `.`, `!`, `?` at a
maximal whitespace run (the run is consumed).  A separator ending the text
yields a trailing empty sentence, exactly as in Python. -/
def splitSentences (l : List Char) : List (List Char) :=
  splitSentencesAux false false [] [] l

/-- Python slice `d[a:b]` (for `a ≤ b`) on a character list. -/
def sliceL (d : List Char) (a b : Nat) : List Char :=
  (d.drop a).take (b - a)

/-- Python `content.find('\n', p)` mapped to `len(content)` when absent:
the index of the first newline at or after `p`. -/
def lineEnd (d : List Char) (p : Nat) : Nat :=
  p + ((d.drop p).takeWhile (fun c => c ≠ '\n')).length

/-- One step of the word-packing loop of `split_text_into_chunks`
(lines 232-237 of `wiki_utils.py`): `acc.1` is `chunks`, `acc.2` is
`temp_chunk`. -/
def wordStep (cs : Nat) (acc : List (List Char) × List Char) (w : List Char) :
    List (List Char) × List Char :=
  if acc.2.length + w.length + 1 > cs then (acc.1 ++ [pyStrip acc.2], w ++ [' '])
  else (acc.1, acc.2 ++ w ++ [' '])

/-- One step of the sentence loop of `split_text_into_chunks`
(lines 227-247 of `wiki_utils.py`): `acc.1` is `chunks`, `acc.2` is
`current_chunk`. -/
def sentStep (cs : Nat) (acc : List (List Char) × List Char) (s : List Char) :
    List (List Char) × List Char :=
  if s.length > cs then
    let r := (pySplit s).foldl (wordStep cs) (acc.1, [])
    if pyStrip r.2 ≠ [] then (r.1, acc.2 ++ r.2) else (r.1, acc.2)
  else if acc.2.length + s.length > cs then
    (acc.1 ++ [pyStrip acc.2], s ++ [' '])
  else (acc.1, acc.2 ++ s ++ [' '])

/-- `split_text_into_chunks(text, chunk_size)` of `wiki_utils.py`
(the source gives `chunk_size` the default value 800; callers here pass it
explicitly). -/
def split_text_into_chunks (text : String) (chunk_size : Nat) : List String :=
  if text = "" then []
  else
    let r := (splitSentences text.data).foldl (sentStep chunk_size) ([], [])
    let cks := if pyStrip r.2 ≠ [] then r.1 ++ [pyStrip r.2] else r.1
    cks.map String.mk

/-- `translate_chunk(chunk, to_lang, from_lang)` of `wiki_utils.py`.  The
call to `basic_translate` (an external network call that, per the spec's
TranslateClient interface, may raise) is the oracle `f`; the
`try/except` of the source is the `match` on its `Except` result, falling
back to the original chunk. -/
def translate_chunk (f : String → String → String → Except Unit String)
    (chunk to_lang from_lang : String) : String :=
  if pyStrip chunk.data = [] then ""
  else
    match f chunk to_lang from_lang with
    | Except.ok t => t
    | Except.error _ => chunk

/-- Writing one completed chunk result into the index-keyed map
`chunk_results` (line 332 of `wiki_utils.py`). -/
def updResult (m : Nat → Option String) (k : Nat) (v : String) : Nat → Option String :=
  fun j => if j = k then some v else m j

/-- The fan-in loop of `translate_text` (lines 324-337): futures are
processed in completion order `order`; each completed future for chunk
index `k` stores `translate_chunk` applied to chunk `k` into the map,
keyed by the original index (a raising call is absorbed into the
original-chunk fallback, matching both the chunk-level and the
loop-level `except` of the source). -/
def collectResults (tr : Nat → String → String → String → Except Unit String)
    (chunks : List String) (to_lang from_lang : String) (order : List Nat) :
    Nat → Option String :=
  order.foldl
    (fun m k => updResult m k (translate_chunk (tr k) (chunks.getD k "") to_lang from_lang))
    (fun _ => none)

/-- Python `' '.join(l)`. -/
def joinSpace : List String → String
  | [] => ""
  | [x] => x
  | x :: y :: t => x ++ " " ++ joinSpace (y :: t)

/-- The body of the `try` block of `translate_text` (lines 295-343).
`fault` injects an exception escaping the body itself (caught only by the
outer `except`); `bt` is the direct `basic_translate` call used on the
short-text path (it may raise, which also escapes to the outer
`except`); `tr` is the per-chunk TranslateClient oracle, indexed by chunk
index; `order` is the completion order in which `as_completed` yields the
futures.  The final line rebuilds the output from the index-keyed map in
ascending index order, using the original chunk as fallback for a missing
key, and joins with a single space. -/
def translate_textBody (fault : Option Unit)
    (bt : String → String → String → Except Unit String)
    (tr : Nat → String → String → String → Except Unit String)
    (order : List Nat) (text to_lang from_lang : String) : Except Unit String :=
  match fault with
  | some e => Except.error e
  | none =>
    if text.length < 200 then bt text to_lang from_lang
    else
      let chunks := split_text_into_chunks text 800
      if chunks = [] then Except.ok ""
      else
        let results := collectResults tr chunks to_lang from_lang order
        Except.ok (joinSpace ((List.range chunks.length).map
          (fun i => (results i).getD (chunks.getD i ""))))

/-- `translate_text(text, to_lang, from_lang)` of `wiki_utils.py`: the
empty-text guard, then the `try` body, with the outer `except` returning
the input text unchanged on any escaped exception. -/
def translate_text (fault : Option Unit)
    (bt : String → String → String → Except Unit String)
    (tr : Nat → String → String → String → Except Unit String)
    (order : List Nat) (text to_lang from_lang : String) : String :=
  if text = "" then ""
  else
    match translate_textBody fault bt tr order text to_lang from_lang with
    | Except.ok s => s
    | Except.error _ => text

/-- First-success search over a list, used to embed the backtracking
preference order of the heading regular expression. -/
def firstSome? {α β : Type} : List α → (α → Option β) → Option β
  | [], _ => none
  | a :: l, f =>
    match f a with
    | some b => some b
    | none => firstSome? l f

/-- Descending enumeration `[m, m-1, ..., 0]` (greedy preference order). -/
def descList (m : Nat) : List Nat :=
  (List.range (m + 1)).reverse

/-- Length of the run of `=` characters at index `i`. -/
def countEq (d : List Char) (i : Nat) : Nat :=
  ((d.drop i).takeWhile (fun c => c = '=')).length

/-- Length of the whitespace run at index `i` (regex `\s*`, which may
cross newlines). -/
def countWs (d : List Char) (i : Nat) : Nat :=
  ((d.drop i).takeWhile pyIsWs).length

/-- Length of the newline-free run at index `i` (regex `.` does not match
a newline). -/
def countNonNl (d : List Char) (i : Nat) : Nat :=
  ((d.drop i).takeWhile (fun c => c ≠ '\n')).length

/-- Attempt to match `(={2,6})\s*(.*?)\s*\1` at index `i` (the `^` anchor
is checked by the caller).  Preference order reproduces Python
backtracking: the delimiter count is greedy (6 down to 2), the first
`\s*` is greedy, `(.*?)` is lazy, the second `\s*` is greedy, and the
backreference requires the same delimiter count again.  On success
returns `(level, title, end index)`. -/
def matchHeadingAt (d : List Char) (i : Nat) : Option (Nat × List Char × Nat) :=
  firstSome? [6, 5, 4, 3, 2] (fun n =>
    if n ≤ countEq d i then
      firstSome? (descList (countWs d (i + n))) (fun w1 =>
        let q := i + n + w1
        firstSome? (List.range (countNonNl d q + 1)) (fun t =>
          let r := q + t
          firstSome? (descList (countWs d r)) (fun w2 =>
            let e := r + w2
            if n ≤ countEq d e then some (n, sliceL d q r, e + n) else none)))
    else none)

/-- Multiline `^`: index 0 or just after a newline. -/
def lineStart (d : List Char) (i : Nat) : Bool :=
  i == 0 || d.get? (i - 1) == some '\n'

/-- Worker for `findHeadings`: `finditer` scanning with non-overlapping
leftmost matches, resuming after each match end.  `fuel` only bounds the
recursion; `d.length + 1` is always sufficient since every step advances
the position. -/
def findHeadingsAux (d : List Char) : Nat → Nat → List (Nat × Nat × List Char)
  | 0, _ => []
  | fuel + 1, i =>
    if d.length ≤ i then []
    else if lineStart d i then
      match matchHeadingAt d i with
      | some (n, t, e) => (i, n, t) :: findHeadingsAux d fuel e
      | none => findHeadingsAux d fuel (i + 1)
    else findHeadingsAux d fuel (i + 1)

/-- All matches of `heading_pattern.finditer(content)` as
`(position, level, title)` triples (lines 363-369 of `wiki_utils.py`). -/
def findHeadings (d : List Char) : List (Nat × Nat × List Char) :=
  findHeadingsAux d (d.length + 1) 0

/-- Insertion into a position-sorted heading list. -/
def insertHd (x : Nat × Nat × List Char) :
    List (Nat × Nat × List Char) → List (Nat × Nat × List Char)
  | [] => [x]
  | y :: l => if x.1 ≤ y.1 then x :: y :: l else y :: insertHd x l

/-- `headings.sort()` (line 372).  Python sorts the tuples
lexicographically; positions are pairwise distinct, so sorting by
position alone is faithful (and is in fact the identity, proved below). -/
def sortHds : List (Nat × Nat × List Char) → List (Nat × Nat × List Char)
  | [] => []
  | x :: l => insertHd x (sortHds l)

/-- The sorted heading list used by `split_content_into_sections`. -/
def headingsOf (d : List Char) : List (Nat × Nat × List Char) :=
  sortHds (findHeadings d)

/-- A section as produced by `split_content_into_sections`: title (absent
only for the lead section), content, and heading level. -/
structure Sect where
  title : Option String
  content : String
  level : Nat
deriving DecidableEq

/-- The per-heading loop of `split_content_into_sections`
(lines 389-410): each heading's section runs from the end of its heading
line to the start of the next heading (or the end of the document),
stripped. -/
def buildSections (d : List Char) : List (Nat × Nat × List Char) → List Sect
  | [] => []
  | [(p, n, t)] =>
    [⟨some (String.mk t), String.mk (pyStrip (sliceL d (lineEnd d p) d.length)), n⟩]
  | (p, n, t) :: (q, m, u) :: rest =>
    ⟨some (String.mk t), String.mk (pyStrip (sliceL d (lineEnd d p) q)), n⟩ ::
      buildSections d ((q, m, u) :: rest)

/-- `split_content_into_sections(content)` of `wiki_utils.py`. -/
def split_content_into_sections (content : String) : List Sect :=
  let d := content.data
  let hs := headingsOf d
  let intro : List Sect :=
    match hs with
    | [] => []
    | (p, _, _) :: _ =>
      let ic := pyStrip (sliceL d 0 p)
      if ic ≠ [] then [⟨none, String.mk ic, 0⟩] else []
  let sections := intro ++ buildSections d hs
  if sections = [] then [⟨none, String.mk (pyStrip d), 0⟩] else sections

/-- The worker-count cap of `translate_text`
(line 311: `max_workers = min(12, total_chunks)`). -/
def max_workers (text : String) : Nat :=
  min 12 (split_text_into_chunks text 800).length

/-- State of the `ThreadPoolExecutor` used by `translate_text`: chunk
indices not yet started, currently in flight, and completed. -/
structure PoolState where
  pending : List Nat
  running : List Nat
  done : List Nat
deriving DecidableEq

/-- Scheduling steps of a fixed-capacity worker pool: a pending task may
start only while fewer than `c` tasks are in flight; an in-flight task
may finish at any time (completion order is unconstrained). -/
inductive PoolStep (c : Nat) : PoolState → PoolState → Prop
  | start (t : Nat) (s : PoolState) : t ∈ s.pending → s.running.length < c →
      PoolStep c s ⟨s.pending.erase t, t :: s.running, s.done⟩
  | finish (t : Nat) (s : PoolState) : t ∈ s.running →
      PoolStep c s ⟨s.pending, s.running.erase t, t :: s.done⟩

/-- Initial pool state for `n` submitted chunk tasks. -/
def initPool (n : Nat) : PoolState :=
  ⟨List.range n, [], []⟩

/-- Concatenated contents of a section list, for the reassembly claim. -/
def sectionsContent (l : List Sect) : List Char :=
  (l.map (fun s => s.content.data)).flatten

/-- Stated from the claim for C6: the document with the heading marker
lines removed, i.e. the per-heading body spans (from the end of each
heading's line to the next heading position, the last one to the end),
each whitespace-trimmed. -/
def strippedBodies (d : List Char) : List Nat → List (List Char)
  | [] => []
  | [p] => [pyStrip (sliceL d (lineEnd d p) d.length)]
  | p :: q :: rest => pyStrip (sliceL d (lineEnd d p) q) :: strippedBodies d (q :: rest)

/-- Stated from the claim for C6: the document spliced back together from
heading position `p` on: the heading marker line, then the raw body span,
then the rest.  Together with the part before the first heading this must
reproduce the document exactly (no body character lost or duplicated). -/
def spliceFrom (d : List Char) : List Nat → List Char
  | [] => []
  | [p] => sliceL d p (lineEnd d p) ++ sliceL d (lineEnd d p) d.length
  | p :: q :: rest => sliceL d p (lineEnd d p) ++ sliceL d (lineEnd d p) q ++ spliceFrom d (q :: rest)

/-- Stated from the claim for C7: a line of the exact closed heading
shape, read as permissively as possible: it opens with `N` delimiter
characters (`2 ≤ N ≤ 6`), closes with the same `N` delimiters at the end
of the line, and everything in between is the (arbitrary) title material.
Any heading line with trailing text after the closing delimiters fails
even this permissive shape. -/
def specExactHeadingLine (l : List Char) : Bool :=
  (List.range 5).any (fun k =>
    let n := k + 2
    decide (2 * n ≤ l.length) &&
      sliceL l 0 n == List.replicate n '=' &&
      sliceL l (l.length - n) l.length == List.replicate n '=')

/-- Sum of the lengths of a list of character lists. -/
def sumLens (L : List (List Char)) : Nat :=
  (L.map List.length).sum

/-- Joining character lists with single separating spaces (the shape of
the accumulator of `split_text_into_chunks` after stripping). -/
def interSp : List (List Char) → List Char
  | [] => []
  | [x] => x
  | x :: y :: t => x ++ [' '] ++ interSp (y :: t)

example : splitSentences "Aa. bbb ccc".data = ["Aa.".data, "bbb ccc".data] := by decide
example : split_text_into_chunks "Aa. bbb ccc ddd" 5 = ["bbb", "ccc", "Aa. ddd"] := by decide
example : split_text_into_chunks "aa bb cc. aa bb cc" 5 = ["aa", "bb", "aa", "bb", "cc. cc"] := by
  decide
example : split_text_into_chunks "a.  b" 800 = ["a. b"] := by decide
example : split_text_into_chunks "" 800 = [] := by decide
example : matchHeadingAt "== A ==".data 0 = some (2, "A".data, 7) := by decide
example : matchHeadingAt "=== T ===".data 0 = some (3, "T".data, 9) := by decide
example : matchHeadingAt "====".data 0 = some (2, [], 4) := by decide
example : matchHeadingAt "== T == x".data 0 = some (2, "T".data, 7) := by decide
example : matchHeadingAt "========".data 0 = some (4, [], 8) := by decide
example : matchHeadingAt "= A =".data 0 = none := by decide
example : matchHeadingAt "==\n==".data 0 = some (2, [], 5) := by decide
example : matchHeadingAt "=====x=====".data 0 = some (5, "x".data, 11) := by decide
example : findHeadings "x == A ==".data = [] := by decide
example : findHeadings "Intro\n== A ==\nBody".data = [(6, 2, "A".data)] := by decide
example :
    split_content_into_sections "Intro text\n==A==\nBody A\n===A1===\nBody A1" =
      [⟨none, "Intro text", 0⟩, ⟨some "A", "Body A", 2⟩, ⟨some "A1", "Body A1", 3⟩] := by
  decide
example :
    split_content_into_sections "== T == x\nbody" = [⟨some "T", "body", 2⟩] := by decide
example : split_content_into_sections "no headings" = [⟨none, "no headings", 0⟩] := by decide
example : specExactHeadingLine "== A ==".data = true := by decide
example : specExactHeadingLine "====".data = true := by decide
example : specExactHeadingLine "== T == x".data = false := by decide

/-! ### Helper lemmas -/

/-- Pointwise-equal functions fold to the same result map. -/
theorem foldl_upd_congr (chunks : List String) (to_lang from_lang : String)
    (tr tr' : Nat → String → String → String → Except Unit String)
    (h : ∀ k, translate_chunk (tr k) (chunks.getD k "") to_lang from_lang =
      translate_chunk (tr' k) (chunks.getD k "") to_lang from_lang) :
    ∀ (order : List Nat) (m : Nat → Option String),
      order.foldl (fun m k =>
          updResult m k (translate_chunk (tr k) (chunks.getD k "") to_lang from_lang)) m =
        order.foldl (fun m k =>
          updResult m k (translate_chunk (tr' k) (chunks.getD k "") to_lang from_lang)) m
  | [], _ => rfl
  | k :: rest, m => by
    simp only [List.foldl_cons, h k]
    exact foldl_upd_congr chunks to_lang from_lang tr tr' h rest _

/-- After folding the fan-in map over any completion order containing
index `i`, the entry for `i` holds that chunk's own result: each key is
written only with a value determined by the key, so arrival order cannot
change the final map. -/
theorem collect_lookup (tr : Nat → String → String → String → Except Unit String)
    (chunks : List String) (to_lang from_lang : String) :
    ∀ (order : List Nat) (m : Nat → Option String) (i : Nat),
      (i ∈ order ∨ m i = some (translate_chunk (tr i) (chunks.getD i "") to_lang from_lang)) →
      (order.foldl (fun m k =>
          updResult m k (translate_chunk (tr k) (chunks.getD k "") to_lang from_lang)) m) i =
        some (translate_chunk (tr i) (chunks.getD i "") to_lang from_lang)
  | [], m, i, h => by
    cases h with
    | inl h => cases h
    | inr h => exact h
  | k :: rest, m, i, h => by
    simp only [List.foldl_cons]
    apply collect_lookup tr chunks to_lang from_lang rest _ i
    by_cases hik : i ∈ rest
    · exact Or.inl hik
    · right
      cases h with
      | inl h =>
        have hk : i = k := by
          rcases List.mem_cons.mp h with h1 | h1
          · exact h1
          · exact absurd h1 hik
        subst hk
        simp [updResult]
      | inr h =>
        by_cases hik2 : i = k
        · subst hik2; simp [updResult]
        · simpa [updResult, hik2] using h

/-- Mapping pointwise-equal functions over a list gives equal lists. -/
theorem map_congr_mem {α β : Type} (f g : α → β) :
    ∀ (l : List α), (∀ a ∈ l, f a = g a) → l.map f = l.map g
  | [], _ => rfl
  | a :: l, h => by
    simp only [List.map_cons, h a (List.mem_cons_self a l)]
    rw [map_congr_mem f g l (fun b hb => h b (List.mem_cons_of_mem a hb))]

/-- A list's length is preserved by `erase`-free sublists: the running
list after a `finish` step is a sublist of the one before. -/
theorem pool_invariant (c : Nat) {s0 s : PoolState}
    (h0 : s0.running.length ≤ c)
    (h : Relation.ReflTransGen (PoolStep c) s0 s) :
    s.running.length ≤ c := by
  induction h with
  | refl => exact h0
  | tail _ step ih =>
    cases step with
    | start t st hmem hlt => simpa using hlt
    | finish t hmem =>
      refine le_trans ?_ ih
      simpa using List.Sublist.length_le (List.erase_sublist t _)

/-- Unfolding equation of the sentence splitter at the end of input. -/
theorem ssAux_nil (p i : Bool) (cur : List Char) (acc : List (List Char)) :
    splitSentencesAux p i cur acc [] =
      if i then acc ++ [[]] else acc ++ [cur.reverse] := rfl

/-- Unfolding equation of the sentence splitter inside a separator. -/
theorem ssAux_cons_sep (p : Bool) (cur : List Char) (acc : List (List Char))
    (c : Char) (rest : List Char) :
    splitSentencesAux p true cur acc (c :: rest) =
      if pyIsWs c then splitSentencesAux false true [] acc rest
      else splitSentencesAux (isPunctSent c) false [c] acc rest := rfl

/-- Unfolding equation of the sentence splitter inside a sentence. -/
theorem ssAux_cons (p : Bool) (cur : List Char) (acc : List (List Char))
    (c : Char) (rest : List Char) :
    splitSentencesAux p false cur acc (c :: rest) =
      if pyIsWs c && p then splitSentencesAux false true [] (acc ++ [cur.reverse]) rest
      else splitSentencesAux (isPunctSent c) false (c :: cur) acc rest := rfl

theorem sumLens_nil : sumLens [] = 0 := rfl

theorem sumLens_cons (a : List Char) (L : List (List Char)) :
    sumLens (a :: L) = a.length + sumLens L := by simp [sumLens]

theorem sumLens_append (A B : List (List Char)) :
    sumLens (A ++ B) = sumLens A + sumLens B := by simp [sumLens]

/-- The sentence splitter only appends to its accumulator. -/
theorem ssAux_acc : ∀ (rest : List Char) (p i : Bool) (cur : List Char)
    (acc : List (List Char)),
    splitSentencesAux p i cur acc rest = acc ++ splitSentencesAux p i cur [] rest
  | [], _, i, cur, acc => by cases i <;> simp [ssAux_nil]
  | c :: rest, p, i, cur, acc => by
    cases i with
    | true =>
      by_cases hw : pyIsWs c = true
      · rw [ssAux_cons_sep, ssAux_cons_sep, if_pos hw, if_pos hw]
        exact ssAux_acc rest false true [] acc
      · rw [ssAux_cons_sep, ssAux_cons_sep, if_neg hw, if_neg hw]
        exact ssAux_acc rest (isPunctSent c) false ([c]) acc
    | false =>
      by_cases hw : (pyIsWs c && p) = true
      · rw [ssAux_cons, ssAux_cons, if_pos hw, if_pos hw, List.nil_append]
        rw [ssAux_acc rest false true [] (acc ++ [cur.reverse]),
          ssAux_acc rest false true [] ([cur.reverse])]
        simp
      · rw [ssAux_cons, ssAux_cons, if_neg hw, if_neg hw]
        exact ssAux_acc rest (isPunctSent c) false (c :: cur) acc

/-- The sentence splitter always returns at least one sentence. -/
theorem ssAux_ne_nil : ∀ (rest : List Char) (p i : Bool) (cur : List Char)
    (acc : List (List Char)),
    splitSentencesAux p i cur acc rest ≠ []
  | [], _, i, cur, acc => by cases i <;> simp [ssAux_nil]
  | c :: rest, p, i, cur, acc => by
    cases i with
    | true =>
      by_cases hw : pyIsWs c = true
      · rw [ssAux_cons_sep, if_pos hw]
        exact ssAux_ne_nil rest false true [] acc
      · rw [ssAux_cons_sep, if_neg hw]
        exact ssAux_ne_nil rest (isPunctSent c) false ([c]) acc
    | false =>
      by_cases hw : (pyIsWs c && p) = true
      · rw [ssAux_cons, if_pos hw]
        exact ssAux_ne_nil rest false true [] (acc ++ [cur.reverse])
      · rw [ssAux_cons, if_neg hw]
        exact ssAux_ne_nil rest (isPunctSent c) false (c :: cur) acc

/-- Length accounting for the sentence splitter: sentence characters plus
one separator-or-end per sentence never exceed the input length plus
one. -/
theorem ssAux_len : ∀ (rest : List Char) (p i : Bool) (cur : List Char)
    (acc : List (List Char)),
    sumLens (splitSentencesAux p i cur acc rest) +
        (splitSentencesAux p i cur acc rest).length ≤
      sumLens acc + acc.length + cur.length + rest.length + 1
  | [], _, i, cur, acc => by
    cases i <;>
      simp only [ssAux_nil, if_pos, if_neg, Bool.false_eq_true, Bool.true_eq_false,
        ite_true, ite_false, sumLens_append, sumLens_cons, sumLens_nil,
        List.length_append, List.length_cons, List.length_nil, List.length_reverse] <;>
      omega
  | c :: rest, p, i, cur, acc => by
    cases i with
    | true =>
      by_cases hw : pyIsWs c = true
      · rw [ssAux_cons_sep, if_pos hw]
        have h := ssAux_len rest false true [] acc
        simp only [List.length_nil, List.length_cons] at h ⊢
        omega
      · rw [ssAux_cons_sep, if_neg hw]
        have h := ssAux_len rest (isPunctSent c) false ([c]) acc
        simp only [List.length_cons, List.length_nil] at h ⊢
        omega
    | false =>
      by_cases hw : (pyIsWs c && p) = true
      · rw [ssAux_cons, if_pos hw]
        have h := ssAux_len rest false true [] (acc ++ [cur.reverse])
        simp only [sumLens_append, sumLens_cons, sumLens_nil, List.length_append,
          List.length_reverse, List.length_nil, List.length_cons] at h ⊢
        omega
      · rw [ssAux_cons, if_neg hw]
        have h := ssAux_len rest (isPunctSent c) false (c :: cur) acc
        simp only [List.length_cons] at h ⊢
        omega

/-- Sentence characters plus separators are bounded by the input length
plus one. -/
theorem splitSentences_len (l : List Char) :
    sumLens (splitSentences l) + (splitSentences l).length ≤ l.length + 1 := by
  have := ssAux_len l false false [] []
  simpa [splitSentences, sumLens] using this

/-- Each member's length is at most the sum of all lengths. -/
theorem length_le_sumLens {s : List Char} : ∀ {L : List (List Char)}, s ∈ L →
    s.length ≤ sumLens L
  | [], h => absurd h (List.not_mem_nil s)
  | a :: L, h => by
    rcases List.mem_cons.mp h with h1 | h1
    · subst h1; simp [sumLens]
    · have := length_le_sumLens h1
      simp only [sumLens, List.map_cons, List.sum_cons] at this ⊢
      omega

/-- When the whole remaining sentence material fits in one chunk, the
sentence loop only extends the accumulator and never flushes. -/
theorem fold_no_flush (cs : Nat) : ∀ (ss : List (List Char))
    (chunks : List (List Char)) (current : List Char),
    sumLens ss + ss.length + current.length ≤ cs →
    ss.foldl (sentStep cs) (chunks, current) =
      (chunks, current ++ (ss.map (fun s => s ++ [' '])).flatten)
  | [], chunks, current, _ => by simp
  | s :: rest, chunks, current, h => by
    have hsum : s.length + sumLens rest + (rest.length + 1) + current.length ≤ cs := by
      simpa [sumLens] using h
    have h1 : ¬ s.length > cs := by omega
    have h2 : ¬ current.length + s.length > cs := by omega
    simp only [List.foldl_cons, sentStep, if_neg h1, if_neg h2]
    rw [fold_no_flush cs rest chunks (current ++ s ++ [' ']) (by simp; omega)]
    simp

theorem dropWhile_ws_append_space : ∀ (z : List Char),
    (z ++ [' ']).dropWhile pyIsWs =
      if z.dropWhile pyIsWs = [] then [] else z.dropWhile pyIsWs ++ [' ']
  | [] => by simp [List.dropWhile, show pyIsWs ' ' = true by decide]
  | c :: z => by
    by_cases hc : pyIsWs c = true
    · simp only [List.cons_append, List.dropWhile_cons, hc, if_true]
      exact dropWhile_ws_append_space z
    · simp [List.dropWhile_cons, hc]

/-- Stripping ignores a trailing space. -/
theorem pyStrip_append_space (z : List Char) : pyStrip (z ++ [' ']) = pyStrip z := by
  unfold pyStrip
  rw [dropWhile_ws_append_space]
  by_cases hz : z.dropWhile pyIsWs = []
  · rw [if_pos hz, hz]
  · rw [if_neg hz, List.reverse_append]
    simp [List.dropWhile_cons, show pyIsWs ' ' = true by decide]

/-- A list strips to nothing exactly when it is all whitespace. -/
theorem pyStrip_eq_nil_iff (l : List Char) :
    pyStrip l = [] ↔ ∀ c ∈ l, pyIsWs c = true := by
  unfold pyStrip
  rw [List.reverse_eq_nil_iff, List.dropWhile_eq_nil_iff]
  constructor
  · intro h c hc
    rw [← List.takeWhile_append_dropWhile pyIsWs l] at hc
    rcases List.mem_append.mp hc with h1 | h1
    · exact List.mem_takeWhile_imp h1
    · exact h c (List.mem_reverse.mpr h1)
  · intro h c hc
    exact h c ((List.dropWhile_sublist pyIsWs).subset (List.mem_reverse.mp hc))

/-- Characters of the current partial sentence end up in some produced
sentence (the separator mode always carries an empty partial
sentence). -/
theorem ssAux_cur_mem {c : Char} : ∀ (rest : List Char) (p i : Bool) (cur : List Char)
    (acc : List (List Char)), (i = true → cur = []) → c ∈ cur →
    ∃ s ∈ splitSentencesAux p i cur acc rest, c ∈ s
  | [], _, i, cur, acc, hic, hc => by
    cases i with
    | true => exact absurd hc (by simp [hic rfl])
    | false =>
      refine ⟨cur.reverse, ?_, List.mem_reverse.mpr hc⟩
      simp [ssAux_nil]
  | d :: rest, p, i, cur, acc, hic, hc => by
    cases i with
    | true => exact absurd hc (by simp [hic rfl])
    | false =>
      by_cases hw : (pyIsWs d && p) = true
      · rw [ssAux_cons, if_pos hw]
        refine ⟨cur.reverse, ?_, List.mem_reverse.mpr hc⟩
        rw [ssAux_acc rest false true [] (acc ++ [cur.reverse])]
        simp
      · rw [ssAux_cons, if_neg hw]
        exact ssAux_cur_mem rest (isPunctSent d) false (d :: cur) acc
          (fun h => nomatch h) (List.mem_cons_of_mem d hc)

/-- Every non-whitespace character of the remaining input appears in some
produced sentence: the splitter only discards separator whitespace. -/
theorem ssAux_rest_mem {c : Char} : ∀ (rest : List Char) (p i : Bool) (cur : List Char)
    (acc : List (List Char)), (i = true → cur = []) → c ∈ rest → pyIsWs c = false →
    ∃ s ∈ splitSentencesAux p i cur acc rest, c ∈ s
  | [], _, _, _, _, _, hc, _ => absurd hc (List.not_mem_nil c)
  | d :: rest, p, i, cur, acc, hic, hc, hcw => by
    rcases List.mem_cons.mp hc with h1 | h1
    · subst h1
      cases i with
      | true =>
        rw [ssAux_cons_sep, if_neg (by simp [hcw])]
        exact ssAux_cur_mem rest (isPunctSent c) false ([c]) acc
          (fun h => nomatch h) (List.mem_singleton.mpr rfl)
      | false =>
        rw [ssAux_cons, if_neg (by simp [hcw])]
        exact ssAux_cur_mem rest (isPunctSent c) false (c :: cur) acc
          (fun h => nomatch h) (List.mem_cons_self c cur)
    · cases i with
      | true =>
        by_cases hw : pyIsWs d = true
        · rw [ssAux_cons_sep, if_pos hw]
          exact ssAux_rest_mem rest false true [] acc (fun _ => rfl) h1 hcw
        · rw [ssAux_cons_sep, if_neg hw]
          exact ssAux_rest_mem rest (isPunctSent d) false ([d]) acc
            (fun h => nomatch h) h1 hcw
      | false =>
        by_cases hw : (pyIsWs d && p) = true
        · rw [ssAux_cons, if_pos hw]
          exact ssAux_rest_mem rest false true [] (acc ++ [cur.reverse])
            (fun _ => rfl) h1 hcw
        · rw [ssAux_cons, if_neg hw]
          exact ssAux_rest_mem rest (isPunctSent d) false (d :: cur) acc
            (fun h => nomatch h) h1 hcw

/-- Membership in a space-joined list of words. -/
theorem mem_interSp {c : Char} : ∀ {ss : List (List Char)} {s : List Char},
    s ∈ ss → c ∈ s → c ∈ interSp ss
  | [], _, h, _ => absurd h (List.not_mem_nil _)
  | [x], s, h, hc => by
    rw [List.mem_singleton.mp h] at hc
    simpa [interSp] using hc
  | x :: y :: t, s, h, hc => by
    rcases List.mem_cons.mp h with h1 | h1
    · subst h1
      simp [interSp, List.mem_append, hc]
    · have := mem_interSp h1 hc
      simp [interSp, List.mem_append, this]

/-- The accumulator shape after the no-flush fold is the sentences joined
with single spaces plus a trailing space. -/
theorem flatten_map_space : ∀ (ss : List (List Char)), ss ≠ [] →
    (ss.map (fun s => s ++ [' '])).flatten = interSp ss ++ [' ']
  | [], h => absurd rfl h
  | [x], _ => by simp [interSp]
  | x :: y :: t, _ => by
    have := flatten_map_space (y :: t) (by simp)
    simp only [List.map_cons, List.flatten_cons] at this ⊢
    rw [this]
    simp [interSp]

/-- Sentence punctuation is not whitespace. -/
theorem punct_not_ws {c : Char} (h : isPunctSent c = true) : pyIsWs c = false := by
  simp only [isPunctSent, Bool.or_eq_true, decide_eq_true_eq] at h
  rcases h with (h1 | h1) | h1 <;> subst h1 <;> decide

/-- A character list containing a non-whitespace character does not strip
to nothing. -/
theorem pyStrip_ne_nil_of_mem {c : Char} {l : List Char} (hc : c ∈ l)
    (hw : pyIsWs c = false) : pyStrip l ≠ [] := by
  intro h0
  have := (pyStrip_eq_nil_iff l).mp h0 c hc
  rw [this] at hw
  exact nomatch hw

/-- `str.split()` produces only nonempty words of non-whitespace
characters. -/
theorem pySplitAux_words : ∀ (l cur : List Char),
    (∀ c ∈ cur, pyIsWs c = false) →
    ∀ w ∈ pySplitAux cur l, w ≠ [] ∧ ∀ c ∈ w, pyIsWs c = false
  | [], cur, hcur, w, hw => by
    by_cases hce : cur.isEmpty
    · simp only [pySplitAux, if_pos hce] at hw
      exact absurd hw (List.not_mem_nil w)
    · simp only [pySplitAux, if_neg hce] at hw
      rw [List.mem_singleton.mp hw]
      constructor
      · simp only [ne_eq, List.reverse_eq_nil_iff]
        intro h
        rw [h] at hce
        exact hce rfl
      · intro c hc
        exact hcur c (List.mem_reverse.mp hc)
  | d :: l, cur, hcur, w, hw => by
    by_cases hd : pyIsWs d = true
    · by_cases hce : cur.isEmpty
      · simp only [pySplitAux, if_pos hd, if_pos hce] at hw
        exact pySplitAux_words l [] (by simp) w hw
      · simp only [pySplitAux, if_pos hd, if_neg hce] at hw
        rcases List.mem_cons.mp hw with h1 | h1
        · subst h1
          constructor
          · simp only [ne_eq, List.reverse_eq_nil_iff]
            intro h
            rw [h] at hce
            exact hce rfl
          · intro c hc
            exact hcur c (List.mem_reverse.mp hc)
        · exact pySplitAux_words l [] (by simp) w h1
    · simp only [pySplitAux, if_neg hd] at hw
      refine pySplitAux_words l (d :: cur) ?_ w hw
      intro c hc
      rcases List.mem_cons.mp hc with h1 | h1
      · subst h1
        simpa using hd
      · exact hcur c h1

/-- Word-fold membership is monotone: existing chunks survive. -/
theorem wordStep_fold_mem (cs : Nat) : ∀ (ws : List (List Char))
    (acc : List (List Char) × List Char) (x : List Char),
    x ∈ acc.1 → x ∈ (ws.foldl (wordStep cs) acc).1
  | [], _, _, hx => hx
  | w :: ws, acc, x, hx => by
    rw [List.foldl_cons]
    refine wordStep_fold_mem cs ws _ x ?_
    unfold wordStep
    by_cases h : acc.2.length + w.length + 1 > cs
    · rw [if_pos h]
      exact List.mem_append_left _ hx
    · rw [if_neg h]
      exact hx

/-- Sentence-fold membership is monotone: existing chunks survive. -/
theorem sentStep_fold_mem (cs : Nat) : ∀ (ss : List (List Char))
    (acc : List (List Char) × List Char) (x : List Char),
    x ∈ acc.1 → x ∈ (ss.foldl (sentStep cs) acc).1
  | [], _, _, hx => hx
  | s :: ss, acc, x, hx => by
    rw [List.foldl_cons]
    refine sentStep_fold_mem cs ss _ x ?_
    unfold sentStep
    by_cases h1 : s.length > cs
    · rw [if_pos h1]
      have hm := wordStep_fold_mem cs (pySplit s) (acc.1, []) x hx
      by_cases h2 : pyStrip ((pySplit s).foldl (wordStep cs) (acc.1, [])).2 ≠ []
      · rw [if_pos h2]
        exact hm
      · rw [if_neg h2]
        exact hm
    · rw [if_neg h1]
      by_cases h2 : acc.2.length + s.length > cs
      · rw [if_pos h2]
        exact List.mem_append_left _ hx
      · rw [if_neg h2]
        exact hx

/-- Processing an oversized sentence whose first word is at least
`chunk_size` long flushes the still-empty word accumulator, emitting an
empty chunk. -/
theorem bad_sentence_emits (cs : Nat) (s : List Char) (hbad : cs < s.length)
    (w : List Char) (l : List (List Char)) (hw : pySplit s = w :: l)
    (hcs : cs ≤ w.length) (acc : List (List Char) × List Char) :
    [] ∈ (sentStep cs acc s).1 := by
  have hstep : (wordStep cs (acc.1, []) w) = (acc.1 ++ [pyStrip []], w ++ [' ']) := by
    unfold wordStep
    rw [if_pos (by simpa using Nat.lt_succ_of_le hcs)]
  have h0 : [] ∈ ((w :: l).foldl (wordStep cs) (acc.1, [])).1 := by
    rw [List.foldl_cons, hstep]
    refine wordStep_fold_mem cs l _ [] ?_
    simp [pyStrip]
  simp only [sentStep, hw, if_pos hbad]
  by_cases h2 : pyStrip ((w :: l).foldl (wordStep cs) (acc.1, [])).2 ≠ []
  · rw [if_pos h2]
    exact h0
  · rw [if_neg h2]
    exact h0

/-- All sentences before the last one end in sentence punctuation and so
contain a non-whitespace character. -/
theorem ssAux_dropLast_nonws : ∀ (rest : List Char) (p i : Bool) (cur : List Char)
    (acc : List (List Char)),
    (∀ s ∈ acc, ∃ c ∈ s, pyIsWs c = false) →
    (p = true → ∃ c ∈ cur, pyIsWs c = false) →
    ∀ s ∈ (splitSentencesAux p i cur acc rest).dropLast, ∃ c ∈ s, pyIsWs c = false
  | [], _, i, cur, acc, hacc, _, s, hs => by
    cases i with
    | true =>
      rw [ssAux_nil] at hs
      simp only [if_pos] at hs
      rw [List.dropLast_concat] at hs
      exact hacc s hs
    | false =>
      rw [ssAux_nil] at hs
      simp only [Bool.false_eq_true, if_neg, ite_false] at hs
      rw [List.dropLast_concat] at hs
      exact hacc s hs
  | c :: rest, p, i, cur, acc, hacc, hp, s, hs => by
    cases i with
    | true =>
      by_cases hw : pyIsWs c = true
      · rw [ssAux_cons_sep, if_pos hw] at hs
        exact ssAux_dropLast_nonws rest false true [] acc hacc (fun h => nomatch h) s hs
      · rw [ssAux_cons_sep, if_neg hw] at hs
        refine ssAux_dropLast_nonws rest (isPunctSent c) false ([c]) acc hacc ?_ s hs
        intro hpc
        exact ⟨c, List.mem_singleton.mpr rfl, punct_not_ws hpc⟩
    | false =>
      by_cases hw : (pyIsWs c && p) = true
      · rw [ssAux_cons, if_pos hw] at hs
        refine ssAux_dropLast_nonws rest false true [] (acc ++ [cur.reverse]) ?_
          (fun h => nomatch h) s hs
        intro s' hs'
        rcases List.mem_append.mp hs' with h1 | h1
        · exact hacc s' h1
        · rw [List.mem_singleton.mp h1]
          obtain ⟨d, hd, hdw⟩ := hp (Bool.and_elim_right hw)
          exact ⟨d, List.mem_reverse.mpr hd, hdw⟩
      · rw [ssAux_cons, if_neg hw] at hs
        refine ssAux_dropLast_nonws rest (isPunctSent c) false (c :: cur) acc hacc ?_ s hs
        intro hpc
        exact ⟨c, List.mem_cons_self c cur, punct_not_ws hpc⟩

/-- Chunks appended by the word-packing loop are nonempty, provided the
sentence's first word is shorter than `chunk_size` whenever the loop
starts with an empty accumulator. -/
theorem wordfold_no_empty (cs : Nat) : ∀ (ws : List (List Char))
    (C : List (List Char)) (t : List Char),
    (∀ w ∈ ws, w ≠ [] ∧ ∀ c ∈ w, pyIsWs c = false) →
    (t = [] → ∀ w l, ws = w :: l → w.length < cs) →
    (t = [] ∨ ∃ c ∈ t, pyIsWs c = false) →
    ∀ x ∈ (ws.foldl (wordStep cs) (C, t)).1, x ∈ C ∨ x ≠ []
  | [], C, t, _, _, _, x, hx => Or.inl hx
  | w :: ws, C, t, hws, hfirst, hinv, x, hx => by
    rw [List.foldl_cons] at hx
    obtain ⟨hwne, hwnws⟩ := hws w (List.mem_cons_self w ws)
    obtain ⟨d, hd, hdw⟩ : ∃ c ∈ w, pyIsWs c = false := by
      cases w with
      | nil => exact absurd rfl hwne
      | cons a w' => exact ⟨a, List.mem_cons_self a w', hwnws a (List.mem_cons_self a w')⟩
    by_cases hcond : t.length + w.length + 1 > cs
    · rw [show wordStep cs (C, t) w = (C ++ [pyStrip t], w ++ [' '])
        from by unfold wordStep; rw [if_pos hcond]] at hx
      have htne : t ≠ [] := by
        intro h
        subst h
        have := hfirst rfl w ws rfl
        simp only [List.length_nil, Nat.zero_add] at hcond
        omega
      have hstripne : pyStrip t ≠ [] := by
        rcases hinv with h1 | ⟨c, hc, hcw⟩
        · exact absurd h1 htne
        · exact pyStrip_ne_nil_of_mem hc hcw
      have := wordfold_no_empty cs ws (C ++ [pyStrip t]) (w ++ [' '])
        (fun w' h' => hws w' (List.mem_cons_of_mem w h'))
        (fun h => absurd h (by simp [hwne]))
        (Or.inr ⟨d, List.mem_append_left _ hd, hdw⟩) x hx
      rcases this with h1 | h1
      · rcases List.mem_append.mp h1 with h2 | h2
        · exact Or.inl h2
        · right
          rw [List.mem_singleton.mp h2]
          exact hstripne
      · exact Or.inr h1
    · rw [show wordStep cs (C, t) w = (C, t ++ w ++ [' '])
        from by unfold wordStep; rw [if_neg hcond]] at hx
      exact wordfold_no_empty cs ws C (t ++ w ++ [' '])
        (fun w' h' => hws w' (List.mem_cons_of_mem w h'))
        (fun h => absurd h (by simp))
        (Or.inr ⟨d, by simp [hd], hdw⟩) x hx

/-- A member of a tail's `dropLast` is a member of the whole list's
`dropLast`. -/
theorem mem_dropLast_tail {s' s : List Char} : ∀ {rest : List (List Char)},
    s' ∈ rest.dropLast → s' ∈ (s :: rest).dropLast
  | [], h => absurd h (by simp)
  | r :: rs, h => by
    rw [List.dropLast_cons₂]
    exact List.mem_cons_of_mem s h

/-- A list that does not strip to nothing contains a non-whitespace
character. -/
theorem exists_nonws_of_strip_ne {l : List Char} (h : pyStrip l ≠ []) :
    ∃ c ∈ l, pyIsWs c = false := by
  by_contra hall
  push_neg at hall
  refine h ((pyStrip_eq_nil_iff l).mpr (fun c hc => ?_))
  cases hb : pyIsWs c with
  | false => exact absurd hb (hall c hc)
  | true => rfl

/-- If no sentence is oversized with an over-long first word, the chunk
list built by the sentence loop (with its final flush) contains no empty
chunk. -/
theorem sentfold_no_empty (cs : Nat) : ∀ (ss : List (List Char))
    (C : List (List Char)) (current : List Char),
    (∀ s ∈ ss.dropLast, ∃ c ∈ s, pyIsWs c = false) →
    (∀ s ∈ ss, ¬ (cs < s.length ∧ ∃ w l, pySplit s = w :: l ∧ cs ≤ w.length)) →
    (∀ x ∈ C, x ≠ []) →
    (ss ≠ [] → pyStrip current = [] → current = []) →
    ∀ x ∈ (if pyStrip (ss.foldl (sentStep cs) (C, current)).2 ≠ []
        then (ss.foldl (sentStep cs) (C, current)).1 ++
          [pyStrip (ss.foldl (sentStep cs) (C, current)).2]
        else (ss.foldl (sentStep cs) (C, current)).1), x ≠ []
  | [], C, current, _, _, hC, _ => by
    intro x hx
    simp only [List.foldl_nil] at hx
    by_cases hm : pyStrip current ≠ []
    · rw [if_pos hm] at hx
      rcases List.mem_append.mp hx with h1 | h1
      · exact hC x h1
      · rw [List.mem_singleton.mp h1]
        exact hm
    · rw [if_neg hm] at hx
      exact hC x hx
  | s :: rest, C, current, hs, hbad, hC, hcur => by
    intro x hx
    rw [List.foldl_cons] at hx
    by_cases h1 : s.length > cs
    · have hnb : ¬ ∃ w l, pySplit s = w :: l ∧ cs ≤ w.length := by
        intro hex
        exact hbad s (List.mem_cons_self s rest) ⟨h1, hex⟩
      have hr := wordfold_no_empty cs (pySplit s) C []
        (pySplitAux_words s [] (by simp))
        (fun _ w l hwl => Nat.lt_of_not_le (fun hge => hnb ⟨w, l, hwl, hge⟩))
        (Or.inl rfl)
      have hC' : ∀ y ∈ ((pySplit s).foldl (wordStep cs) (C, [])).1, y ≠ [] := by
        intro y hy
        rcases hr y hy with h2 | h2
        · exact hC y h2
        · exact h2
      by_cases hm : pyStrip ((pySplit s).foldl (wordStep cs) (C, [])).2 ≠ []
      · rw [show sentStep cs (C, current) s =
            (((pySplit s).foldl (wordStep cs) (C, [])).1,
              current ++ ((pySplit s).foldl (wordStep cs) (C, [])).2) from by
          simp only [sentStep, if_pos h1, if_pos hm]] at hx
        refine sentfold_no_empty cs rest _ _ ?_ ?_ hC' ?_ x hx
        · intro s' h'
          exact hs s' (mem_dropLast_tail h')
        · intro s' h'
          exact hbad s' (List.mem_cons_of_mem s h')
        · intro _ h0
          obtain ⟨c, hc, hcw⟩ := exists_nonws_of_strip_ne hm
          exact absurd h0 (pyStrip_ne_nil_of_mem (List.mem_append_right _ hc) hcw)
      · rw [show sentStep cs (C, current) s =
            (((pySplit s).foldl (wordStep cs) (C, [])).1, current) from by
          simp only [sentStep, if_pos h1, if_neg hm]] at hx
        refine sentfold_no_empty cs rest _ _ ?_ ?_ hC' ?_ x hx
        · intro s' h'
          exact hs s' (mem_dropLast_tail h')
        · intro s' h'
          exact hbad s' (List.mem_cons_of_mem s h')
        · intro _ h0
          exact hcur (by simp) h0
    · by_cases h2 : current.length + s.length > cs
      · have hpne : pyStrip current ≠ [] := by
          intro h0
          have hcz := hcur (by simp) h0
          rw [hcz] at h2
          simp only [List.length_nil, Nat.zero_add] at h2
          exact h1 h2
        rw [show sentStep cs (C, current) s = (C ++ [pyStrip current], s ++ [' ']) from by
          simp only [sentStep, if_neg h1, if_pos h2]] at hx
        refine sentfold_no_empty cs rest _ _ ?_ ?_ ?_ ?_ x hx
        · intro s' h'
          exact hs s' (mem_dropLast_tail h')
        · intro s' h'
          exact hbad s' (List.mem_cons_of_mem s h')
        · intro y hy
          rcases List.mem_append.mp hy with h3 | h3
          · exact hC y h3
          · rw [List.mem_singleton.mp h3]
            exact hpne
        · intro hne h0
          obtain ⟨c, hc, hcw⟩ := hs s
            (by rw [List.dropLast_cons_of_ne_nil hne]; exact List.mem_cons_self s _)
          exact absurd h0 (pyStrip_ne_nil_of_mem (List.mem_append_left _ hc) hcw)
      · rw [show sentStep cs (C, current) s = (C, current ++ s ++ [' ']) from by
          simp only [sentStep, if_neg h1, if_neg h2]] at hx
        refine sentfold_no_empty cs rest _ _ ?_ ?_ hC ?_ x hx
        · intro s' h'
          exact hs s' (mem_dropLast_tail h')
        · intro s' h'
          exact hbad s' (List.mem_cons_of_mem s h')
        · intro hne h0
          obtain ⟨c, hc, hcw⟩ := hs s
            (by rw [List.dropLast_cons_of_ne_nil hne]; exact List.mem_cons_self s _)
          have hcmem : c ∈ current ++ s ++ [' '] := by
            rw [List.append_assoc]
            exact List.mem_append_right _ (List.mem_append_left _ hc)
          exact absurd h0 (pyStrip_ne_nil_of_mem hcmem hcw)

/-- A successful first-match search succeeds on some list element. -/
theorem firstSome?_eq_some {α β : Type} : ∀ {l : List α} {f : α → Option β} {b : β},
    firstSome? l f = some b → ∃ a ∈ l, f a = some b
  | [], _, _, h => nomatch h
  | a :: l, f, b, h => by
    rw [show firstSome? (a :: l) f =
        (match f a with | some c => some c | none => firstSome? l f) from rfl] at h
    cases hf : f a with
    | some c =>
      rw [hf] at h
      exact ⟨a, List.mem_cons_self a l, by rw [hf, Option.some_inj.mp h]⟩
    | none =>
      rw [hf] at h
      obtain ⟨a', ha', hfa'⟩ := firstSome?_eq_some h
      exact ⟨a', List.mem_cons_of_mem a ha', hfa'⟩

/-- Membership in the descending enumeration bounds the element. -/
theorem mem_descList {x m : Nat} (h : x ∈ descList m) : x ≤ m :=
  Nat.lt_succ_iff.mp (List.mem_range.mp (List.mem_reverse.mp h))

/-- Soundness of the heading matcher: a successful match at `i` consists
of `n` delimiters (2 ≤ n ≤ 6), a whitespace run, the lazy title slice, a
whitespace run, and `n` closing delimiters, with the returned end
position just after the closing delimiters. -/
theorem matchHeadingAt_sound {d : List Char} {i n : Nat} {t : List Char} {e : Nat}
    (h : matchHeadingAt d i = some (n, t, e)) :
    2 ≤ n ∧ n ≤ 6 ∧ n ≤ countEq d i ∧
      ∃ w1 tl w2, w1 ≤ countWs d (i + n) ∧ tl ≤ countNonNl d (i + n + w1) ∧
        w2 ≤ countWs d (i + n + w1 + tl) ∧
        t = sliceL d (i + n + w1) (i + n + w1 + tl) ∧
        n ≤ countEq d (i + n + w1 + tl + w2) ∧ e = i + n + w1 + tl + w2 + n := by
  obtain ⟨n', hnmem, hn⟩ := firstSome?_eq_some h
  by_cases hc : n' ≤ countEq d i
  · rw [if_pos hc] at hn
    obtain ⟨w1, hw1mem, hw1⟩ := firstSome?_eq_some hn
    obtain ⟨tl, htlmem, htl⟩ := firstSome?_eq_some hw1
    obtain ⟨w2, hw2mem, hw2⟩ := firstSome?_eq_some htl
    by_cases he : n' ≤ countEq d (i + n' + w1 + tl + w2)
    · rw [if_pos he] at hw2
      have hinj := Option.some_inj.mp hw2
      have he1 : n' = n := congrArg Prod.fst hinj
      have he2 : sliceL d (i + n' + w1) (i + n' + w1 + tl) = t :=
        congrArg (fun x => x.2.1) hinj
      have he3 : i + n' + w1 + tl + w2 + n' = e := congrArg (fun x => x.2.2) hinj
      subst he1
      subst he2
      subst he3
      have hn26 : 2 ≤ n' ∧ n' ≤ 6 := by
        simp only [List.mem_cons, List.not_mem_nil, or_false] at hnmem
        rcases hnmem with h1 | h1 | h1 | h1 | h1 <;> (subst h1; exact ⟨by omega, by omega⟩)
      exact ⟨hn26.1, hn26.2, hc, w1, tl, w2, mem_descList hw1mem,
        Nat.lt_succ_iff.mp (List.mem_range.mp htlmem), mem_descList hw2mem, rfl, he, rfl⟩
    · rw [if_neg he] at hw2
      exact nomatch hw2
  · rw [if_neg hc] at hn
    exact nomatch hn

/-- A successful heading match strictly advances the position. -/
theorem matchHeadingAt_advances {d : List Char} {i n : Nat} {t : List Char} {e : Nat}
    (h : matchHeadingAt d i = some (n, t, e)) : i + 4 ≤ e := by
  obtain ⟨h2, _, _, w1, tl, w2, _, _, _, _, _, he⟩ := matchHeadingAt_sound h
  omega

/-- All headings returned by the scanner sit at or after the scan
position. -/
theorem findHeadingsAux_lb (d : List Char) : ∀ (fuel i : Nat)
    (x : Nat × Nat × List Char), x ∈ findHeadingsAux d fuel i → i ≤ x.1
  | 0, _, _, hx => absurd hx (List.not_mem_nil _)
  | fuel + 1, i, x, hx => by
    rw [show findHeadingsAux d (fuel + 1) i =
        (if d.length ≤ i then []
         else if lineStart d i then
           match matchHeadingAt d i with
           | some (n, t, e) => (i, n, t) :: findHeadingsAux d fuel e
           | none => findHeadingsAux d fuel (i + 1)
         else findHeadingsAux d fuel (i + 1)) from rfl] at hx
    by_cases h1 : d.length ≤ i
    · rw [if_pos h1] at hx
      exact absurd hx (List.not_mem_nil _)
    · rw [if_neg h1] at hx
      by_cases h2 : lineStart d i = true
      · rw [if_pos h2] at hx
        cases hm : matchHeadingAt d i with
        | some v =>
          obtain ⟨n, t, e⟩ := v
          rw [hm] at hx
          rcases List.mem_cons.mp hx with h3 | h3
          · rw [h3]
          · have := findHeadingsAux_lb d fuel e x h3
            have hadv := matchHeadingAt_advances hm
            omega
        | none =>
          rw [hm] at hx
          have := findHeadingsAux_lb d fuel (i + 1) x hx
          omega
      · rw [if_neg h2] at hx
        have := findHeadingsAux_lb d fuel (i + 1) x hx
        omega

/-- Every heading returned by the scanner starts at a line start, lies
inside the document, and is a successful match of the heading pattern. -/
theorem findHeadingsAux_sound (d : List Char) : ∀ (fuel i : Nat)
    (x : Nat × Nat × List Char), x ∈ findHeadingsAux d fuel i →
    lineStart d x.1 = true ∧ x.1 < d.length ∧
      ∃ e, matchHeadingAt d x.1 = some (x.2.1, x.2.2, e)
  | 0, _, _, hx => absurd hx (List.not_mem_nil _)
  | fuel + 1, i, x, hx => by
    rw [show findHeadingsAux d (fuel + 1) i =
        (if d.length ≤ i then []
         else if lineStart d i then
           match matchHeadingAt d i with
           | some (n, t, e) => (i, n, t) :: findHeadingsAux d fuel e
           | none => findHeadingsAux d fuel (i + 1)
         else findHeadingsAux d fuel (i + 1)) from rfl] at hx
    by_cases h1 : d.length ≤ i
    · rw [if_pos h1] at hx
      exact absurd hx (List.not_mem_nil _)
    · rw [if_neg h1] at hx
      by_cases h2 : lineStart d i = true
      · rw [if_pos h2] at hx
        cases hm : matchHeadingAt d i with
        | some v =>
          obtain ⟨n, t, e⟩ := v
          rw [hm] at hx
          rcases List.mem_cons.mp hx with h3 | h3
          · rw [h3]
            exact ⟨h2, by omega, e, hm⟩
          · exact findHeadingsAux_sound d fuel e x h3
        | none =>
          rw [hm] at hx
          exact findHeadingsAux_sound d fuel (i + 1) x hx
      · rw [if_neg h2] at hx
        exact findHeadingsAux_sound d fuel (i + 1) x hx

/-- Headings are returned with strictly increasing positions. -/
theorem findHeadingsAux_chain (d : List Char) : ∀ (fuel i : Nat),
    List.Chain' (fun a b => a.1 < b.1) (findHeadingsAux d fuel i)
  | 0, _ => List.chain'_nil
  | fuel + 1, i => by
    rw [show findHeadingsAux d (fuel + 1) i =
        (if d.length ≤ i then []
         else if lineStart d i then
           match matchHeadingAt d i with
           | some (n, t, e) => (i, n, t) :: findHeadingsAux d fuel e
           | none => findHeadingsAux d fuel (i + 1)
         else findHeadingsAux d fuel (i + 1)) from rfl]
    by_cases h1 : d.length ≤ i
    · rw [if_pos h1]
      exact List.chain'_nil
    · rw [if_neg h1]
      by_cases h2 : lineStart d i = true
      · rw [if_pos h2]
        cases hm : matchHeadingAt d i with
        | some v =>
          obtain ⟨n, t, e⟩ := v
          refine List.chain'_cons'.mpr ⟨?_, findHeadingsAux_chain d fuel e⟩
          intro y hy
          have hym := List.mem_of_mem_head? hy
          have := findHeadingsAux_lb d fuel e y hym
          have hadv := matchHeadingAt_advances hm
          simp only []
          omega
        | none => exact findHeadingsAux_chain d fuel (i + 1)
      · rw [if_neg h2]
        exact findHeadingsAux_chain d fuel (i + 1)

/-- Insertion sort is the identity on a position-sorted heading list. -/
theorem sortHds_eq_self : ∀ (hs : List (Nat × Nat × List Char)),
    List.Chain' (fun a b => a.1 < b.1) hs → sortHds hs = hs
  | [], _ => rfl
  | x :: l, h => by
    obtain ⟨hhead, htail⟩ := List.chain'_cons'.mp h
    rw [show sortHds (x :: l) = insertHd x (sortHds l) from rfl,
      sortHds_eq_self l htail]
    cases l with
    | nil => rfl
    | cons y l' =>
      rw [show insertHd x (y :: l') =
          (if x.1 ≤ y.1 then x :: y :: l' else y :: insertHd x l') from rfl]
      rw [if_pos (Nat.le_of_lt (hhead y rfl))]

/-- The sorted heading list of the source equals the scanner output. -/
theorem headingsOf_eq_findHeadings (d : List Char) :
    headingsOf d = findHeadings d :=
  sortHds_eq_self (findHeadings d) (findHeadingsAux_chain d (d.length + 1) 0)

/-- Adjacent slices concatenate. -/
theorem sliceL_append (d : List Char) {a b c : Nat} (hab : a ≤ b) (hbc : b ≤ c) :
    sliceL d a b ++ sliceL d b c = sliceL d a c := by
  unfold sliceL
  have h1 : d.drop b = (d.drop a).drop (b - a) := by
    rw [List.drop_drop]
    congr 1
    omega
  rw [h1, ← List.take_add]
  congr 1
  omega

/-- The full slice is the whole list. -/
theorem sliceL_zero_len (d : List Char) : sliceL d 0 d.length = d := by
  unfold sliceL
  simp

theorem lineEnd_ge (d : List Char) (p : Nat) : p ≤ lineEnd d p :=
  Nat.le_add_right p _

theorem lineEnd_le_length (d : List Char) {p : Nat} (hp : p ≤ d.length) :
    lineEnd d p ≤ d.length := by
  unfold lineEnd
  have h1 : ((d.drop p).takeWhile (fun c => c ≠ '\n')).length ≤ (d.drop p).length :=
    (List.takeWhile_sublist _).length_le
  rw [List.length_drop] at h1
  omega

/-- The first newline at or after `p` is at most any known newline index
at or after `p`. -/
theorem lineEnd_le_of_newline (d : List Char) {p j : Nat} (hpj : p ≤ j)
    (hj : d.get? j = some '\n') : lineEnd d p ≤ j := by
  by_contra hlt
  push_neg at hlt
  have hidx : j - p < ((d.drop p).takeWhile (fun c => c ≠ '\n')).length := by
    unfold lineEnd at hlt
    omega
  have hget : (d.drop p).get? (j - p) = some '\n' := by
    rw [List.get?_drop, show p + (j - p) = j from by omega]
    exact hj
  have hmem : '\n' ∈ (d.drop p).takeWhile (fun c => c ≠ '\n') := by
    have h2 : (((d.drop p).takeWhile (fun c => c ≠ '\n')) ++
        ((d.drop p).dropWhile (fun c => c ≠ '\n'))).get? (j - p) = some '\n' := by
      rw [List.takeWhile_append_dropWhile]
      exact hget
    rw [List.get?_append hidx] at h2
    exact List.get?_mem h2
  have := List.mem_takeWhile_imp hmem
  simp at this

/-- Elements of a slice lying inside a `takeWhile` run satisfy its
predicate. -/
theorem slice_all_of_le_takeWhile {P : Char → Bool} {d : List Char} {i k : Nat}
    (hk : k ≤ ((d.drop i).takeWhile P).length) :
    ∀ c ∈ sliceL d i (i + k), P c = true := by
  intro c hc
  unfold sliceL at hc
  rw [show i + k - i = k from by omega] at hc
  have heq : (d.drop i).take k = ((d.drop i).takeWhile P).take k := by
    conv_lhs => rw [← List.takeWhile_append_dropWhile P (d.drop i)]
    exact List.take_append_of_le_length hk
  rw [heq] at hc
  exact List.mem_takeWhile_imp ((List.take_sublist _ _).subset hc)

/-- A slice lying inside a delimiter run is exactly that many `=`
characters. -/
theorem slice_eq_run {d : List Char} {i n : Nat} (hn : n ≤ countEq d i) :
    sliceL d i (i + n) = List.replicate n '=' := by
  rw [List.eq_replicate_iff]
  constructor
  · unfold sliceL
    rw [show i + n - i = n from by omega]
    rw [List.length_take, List.length_drop]
    have h2 : ((d.drop i).takeWhile (fun c => c = '=')).length ≤ (d.drop i).length :=
      (List.takeWhile_sublist _).length_le
    rw [List.length_drop] at h2
    unfold countEq at hn
    omega
  · intro b hb
    have := slice_all_of_le_takeWhile
      (show n ≤ ((d.drop i).takeWhile (fun c => c = '=')).length from hn) b hb
    simpa using this

/-- The end of a matched delimiter run stays inside the document. -/
theorem run_end_le_length {d : List Char} {i n : Nat} (hn : n ≤ countEq d i)
    (hpos : 1 ≤ n) : i + n ≤ d.length := by
  unfold countEq at hn
  have h1 : ((d.drop i).takeWhile (fun c => c = '=')).length ≤ (d.drop i).length :=
    (List.takeWhile_sublist _).length_le
  rw [List.length_drop] at h1
  omega

/-- Concatenated contents distribute over section list append. -/
theorem sectionsContent_append (A B : List Sect) :
    sectionsContent (A ++ B) = sectionsContent A ++ sectionsContent B := by
  unfold sectionsContent
  rw [List.map_append, List.flatten_append]

/-- The contents of the per-heading sections are the stripped body
spans. -/
theorem buildSections_content (d : List Char) : ∀ (hs : List (Nat × Nat × List Char)),
    sectionsContent (buildSections d hs) =
      (strippedBodies d (hs.map (fun x => x.1))).flatten
  | [] => rfl
  | [(p, n, t)] => by
    simp [buildSections, strippedBodies, sectionsContent]
  | (p, n, t) :: (q, m, u) :: rest => by
    have ih := buildSections_content d ((q, m, u) :: rest)
    simp only [List.map_cons] at ih ⊢
    rw [show buildSections d ((p, n, t) :: (q, m, u) :: rest) =
        ⟨some (String.mk t), String.mk (pyStrip (sliceL d (lineEnd d p) q)), n⟩ ::
          buildSections d ((q, m, u) :: rest) from rfl]
    rw [show strippedBodies d (p :: q :: rest.map (fun x => x.1)) =
        pyStrip (sliceL d (lineEnd d p) q) ::
          strippedBodies d (q :: rest.map (fun x => x.1)) from rfl]
    unfold sectionsContent at ih ⊢
    simp only [List.map_cons] at ih ⊢
    simp only [List.flatten_cons]
    rw [ih]

/-- Splicing heading lines and body spans back together telescopes to the
slice from the first heading to the end of the document. -/
theorem spliceFrom_eq (d : List Char) : ∀ (p0 : Nat) (rest : List Nat),
    (∀ p ∈ p0 :: rest, p < d.length ∧ lineStart d p = true) →
    List.Chain' (fun a b => a < b) (p0 :: rest) →
    spliceFrom d (p0 :: rest) = sliceL d p0 d.length
  | p0, [], hmem, _ => by
    have hp := (hmem p0 (List.mem_cons_self _ _)).1
    rw [show spliceFrom d [p0] =
        sliceL d p0 (lineEnd d p0) ++ sliceL d (lineEnd d p0) d.length from rfl]
    exact sliceL_append d (lineEnd_ge d p0) (lineEnd_le_length d (Nat.le_of_lt hp))
  | p0, q :: rest, hmem, hchain => by
    have hq := hmem q (List.mem_cons_of_mem _ (List.mem_cons_self _ _))
    have hpq : p0 < q := (List.chain'_cons.mp hchain).1
    have hq1 : d.get? (q - 1) = some '\n' := by
      have hls := hq.2
      simp only [lineStart, Bool.or_eq_true, beq_iff_eq] at hls
      rcases hls with h1 | h1
      · omega
      · exact h1
    have hnl : lineEnd d p0 ≤ q := by
      have := lineEnd_le_of_newline d (show p0 ≤ q - 1 from by omega) hq1
      omega
    rw [show spliceFrom d (p0 :: q :: rest) =
        sliceL d p0 (lineEnd d p0) ++ sliceL d (lineEnd d p0) q ++
          spliceFrom d (q :: rest) from rfl]
    rw [spliceFrom_eq d q rest (fun p hp => hmem p (List.mem_cons_of_mem _ hp))
      (List.chain'_cons.mp hchain).2]
    rw [sliceL_append d (lineEnd_ge d p0) hnl]
    exact sliceL_append d (Nat.le_of_lt hpq) (Nat.le_of_lt hq.1)

/-! ### Claims -/

/-- C2: `translate_text` never raises to its caller: it is a total
function into `String`, and whenever an exception escapes the
chunking/fan-out/fan-in body (the `try` block), the outer handler
returns the input text unchanged. -/
theorem C2_translate_text_total_failure_returns_input
    (fault : Option Unit)
    (bt : String → String → String → Except Unit String)
    (tr : Nat → String → String → String → Except Unit String)
    (order : List Nat) (text to_lang from_lang : String)
    (h : translate_textBody fault bt tr order text to_lang from_lang = Except.error ()) :
    translate_text fault bt tr order text to_lang from_lang = text := by
  unfold translate_text
  by_cases ht : text = ""
  · subst ht; simp
  · simp [ht, h]

/-- Witness for C2 at a concrete input: a fault escaping the body makes
`translate_text` return the input unchanged. -/
theorem C2_witness :
    translate_textBody (some ()) (fun s _ _ => Except.ok s) (fun _ s _ _ => Except.ok s)
        [] "hi" "en" "auto" = Except.error () ∧
      translate_text (some ()) (fun s _ _ => Except.ok s) (fun _ s _ _ => Except.ok s)
        [] "hi" "en" "auto" = "hi" :=
  ⟨rfl, C2_translate_text_total_failure_returns_input (some ()) _ _ [] "hi" "en" "auto" rfl⟩

/-- C3: if the TranslateClient call raises for chunk `i` only, the output
of `translate_text` equals the output it would produce had that call
instead returned chunk `i`'s original text; no sibling chunk and not the
whole request is affected, for any completion order. -/
theorem C3_per_chunk_failure_equals_identity_fallback
    (bt : String → String → String → Except Unit String)
    (tr : Nat → String → String → String → Except Unit String)
    (order : List Nat) (text to_lang from_lang : String) (i : Nat)
    (h200 : ¬ text.length < 200)
    (hi : i < (split_text_into_chunks text 800).length)
    (hfail : ∀ s t f, tr i s t f = Except.error ()) :
    translate_text none bt tr order text to_lang from_lang =
      translate_text none bt
        (fun j => if j = i then (fun s _ _ => Except.ok s) else tr j)
        order text to_lang from_lang := by
  have hchunk : ∀ k, translate_chunk (tr k) ((split_text_into_chunks text 800).getD k "")
      to_lang from_lang =
      translate_chunk ((fun j => if j = i then (fun s _ _ => Except.ok s) else tr j) k)
        ((split_text_into_chunks text 800).getD k "") to_lang from_lang := by
    intro k
    by_cases hk : k = i
    · subst hk
      have htr : tr k = fun _ _ _ => Except.error () :=
        funext fun s => funext fun t => funext fun f => hfail s t f
      rw [htr]
      have h2 : ((fun j => if j = k then (fun (s _ _ : String) =>
          (Except.ok s : Except Unit String)) else tr j) k) =
          fun (s _ _ : String) => (Except.ok s : Except Unit String) := by
        simp
      rw [h2]
      unfold translate_chunk
      by_cases hs : pyStrip ((split_text_into_chunks text 800).getD k "").data = []
      · rw [if_pos hs]
      · rw [if_neg hs]
    · simp only [if_neg hk]
  unfold translate_text translate_textBody
  simp only [if_neg h200]
  rw [show collectResults tr (split_text_into_chunks text 800) to_lang from_lang order =
      collectResults (fun j => if j = i then (fun s _ _ => Except.ok s) else tr j)
        (split_text_into_chunks text 800) to_lang from_lang order from
    foldl_upd_congr _ _ _ _ _ hchunk order _]

/-- Witness for C3 at a concrete chunked input with a failing oracle. -/
theorem C3_witness :
    translate_text none (fun s _ _ => Except.ok s) (fun _ _ _ _ => Except.error ())
        [0] (String.mk (List.replicate 210 'a')) "en" "auto" =
      translate_text none (fun s _ _ => Except.ok s)
        (fun j => if j = 0 then (fun s _ _ => Except.ok s)
          else (fun _ _ _ => Except.error ()))
        [0] (String.mk (List.replicate 210 'a')) "en" "auto" :=
  C3_per_chunk_failure_equals_identity_fallback _ _ [0] _ "en" "auto" 0
    (by decide) (by decide) (fun _ _ _ => rfl)

/-- The fan-in map holds each in-order chunk's own result after any
completion order that contains its index. -/
theorem collectResults_lookup (tr : Nat → String → String → String → Except Unit String)
    (chunks : List String) (to_lang from_lang : String) (o : List Nat) (i : Nat)
    (hio : i ∈ o) :
    collectResults tr chunks to_lang from_lang o i =
      some (translate_chunk (tr i) (chunks.getD i "") to_lang from_lang) :=
  collect_lookup tr chunks to_lang from_lang o (fun _ => none) i (Or.inl hio)

/-- A concrete 1101-character text of two long sentences that chunks into
exactly two chunks, used by witnesses for the concurrency claims. -/
def wLongText : String :=
  String.mk (List.replicate 499 'a' ++ '.' :: ' ' :: List.replicate 600 'b')

/-- C1: for a chunked text, `translate_text` returns the per-chunk
results joined with a single space in ascending chunk-index order, and the
result is identical for every completion order of the per-chunk calls:
output order is enforced by index-keyed reassembly, not arrival order. -/
theorem C1_order_invariant_reassembly
    (bt : String → String → String → Except Unit String)
    (tr : Nat → String → String → String → Except Unit String)
    (text to_lang from_lang : String) (order order' : List Nat)
    (h200 : ¬ text.length < 200)
    (hn : 2 ≤ (split_text_into_chunks text 800).length)
    (hp : order.Perm (List.range (split_text_into_chunks text 800).length))
    (hp' : order'.Perm (List.range (split_text_into_chunks text 800).length)) :
    translate_text none bt tr order text to_lang from_lang =
      joinSpace ((List.range (split_text_into_chunks text 800).length).map
        (fun i => translate_chunk (tr i) ((split_text_into_chunks text 800).getD i "")
          to_lang from_lang)) ∧
    translate_text none bt tr order text to_lang from_lang =
      translate_text none bt tr order' text to_lang from_lang := by
  have hne : split_text_into_chunks text 800 ≠ [] := by
    intro h
    rw [h] at hn
    simp at hn
  have htext : text ≠ "" := by
    intro h
    rw [h] at hn
    simp [split_text_into_chunks] at hn
  have hcan : ∀ (o : List Nat),
      o.Perm (List.range (split_text_into_chunks text 800).length) →
      translate_text none bt tr o text to_lang from_lang =
        joinSpace ((List.range (split_text_into_chunks text 800).length).map
          (fun i => translate_chunk (tr i) ((split_text_into_chunks text 800).getD i "")
            to_lang from_lang)) := by
    intro o ho
    simp only [translate_text, translate_textBody, if_neg htext, if_neg h200, if_neg hne]
    congr 1
    apply map_congr_mem
    intro i hi
    have hio : i ∈ o := ho.mem_iff.mpr hi
    rw [collectResults_lookup tr (split_text_into_chunks text 800) to_lang from_lang o i hio]
    rfl
  exact ⟨hcan order hp, (hcan order hp).trans (hcan order' hp').symm⟩

/-- Witness for C1: a two-chunk text translated with completion orders
`[0, 1]` and `[1, 0]` yields the same output. -/
theorem C1_witness :
    translate_text none (fun s _ _ => Except.ok s) (fun _ s _ _ => Except.ok s)
        [0, 1] wLongText "en" "auto" =
      translate_text none (fun s _ _ => Except.ok s) (fun _ s _ _ => Except.ok s)
        [1, 0] wLongText "en" "auto" := by
  have hlen : (split_text_into_chunks wLongText 800).length = 2 := by decide
  exact (C1_order_invariant_reassembly _ _ wLongText "en" "auto" [0, 1] [1, 0]
    (by decide) (by rw [hlen])
    (by rw [hlen]; exact List.Perm.refl _)
    (by rw [hlen]; exact (List.Perm.swap 1 0 []).symm)).2

/-- Counterexample to C8: a text shorter than `maxSize` containing a
sentence boundary with a two-space separator is returned as a single
chunk, but that chunk is not the trimmed input — the separator has been
collapsed to a single space. -/
theorem C8_counterexample :
    ("a.  b" : String).length < 800 ∧ pyStrip ("a.  b" : String).data ≠ [] ∧
      split_text_into_chunks "a.  b" 800 ≠ [String.mk (pyStrip ("a.  b" : String).data)] := by
  decide

/-- C8 (amended): for text shorter than `maxSize` with non-whitespace
content, `split_text_into_chunks` returns exactly one chunk: the trimmed
input with each sentence-boundary whitespace run collapsed to a single
space (equal to the trimmed input whenever those runs are single
spaces). -/
theorem C8_short_text_single_chunk (text : String) (maxSize : Nat)
    (h1 : text.length < maxSize) (h2 : pyStrip text.data ≠ []) :
    split_text_into_chunks text maxSize =
      [String.mk (pyStrip (interSp (splitSentences text.data)))] := by
  have htext : text ≠ "" := by
    intro h
    subst h
    exact h2 rfl
  have hlen : text.data.length = text.length := rfl
  have hss := splitSentences_len text.data
  have hne : splitSentences text.data ≠ [] := ssAux_ne_nil text.data false false [] []
  have hfold := fold_no_flush maxSize (splitSentences text.data) [] []
    (by simp only [List.length_nil]; omega)
  have hnz : pyStrip (interSp (splitSentences text.data)) ≠ [] := by
    obtain ⟨c, hcmem, hcw⟩ : ∃ c ∈ text.data, pyIsWs c = false := by
      by_contra hall
      push_neg at hall
      exact h2 ((pyStrip_eq_nil_iff text.data).mpr fun c hc => by
        have := hall c hc
        simpa using this)
    obtain ⟨s, hs, hcs⟩ :=
      ssAux_rest_mem text.data false false [] [] (fun _ => rfl) hcmem hcw
    intro h0
    have := (pyStrip_eq_nil_iff _).mp h0 c (mem_interSp hs hcs)
    rw [this] at hcw
    exact nomatch hcw
  simp only [split_text_into_chunks, if_neg htext]
  rw [hfold, List.nil_append, flatten_map_space _ hne, pyStrip_append_space]
  rw [if_pos hnz]
  simp

/-- Witness for the amended C8 at a concrete input. -/
theorem C8_witness :
    split_text_into_chunks "a.  b" 800 =
      [String.mk (pyStrip (interSp (splitSentences ("a.  b" : String).data)))] :=
  C8_short_text_single_chunk "a.  b" 800 (by decide) (by decide)

/-- C10: `split_text_into_chunks` emits an empty-string chunk exactly for
inputs that contain a sentence longer than `chunk_size` whose first word
has length at least `chunk_size`: the word-packing loop then flushes the
still-empty accumulator before placing the oversized word.  The second
conjunct evaluates the claim's example — a single unbroken 1000-character
token with `chunk_size` 800 — showing the empty chunk emitted first while
the oversized word itself is carried into the later, final chunk. -/
theorem C10_empty_chunk_iff :
    (∀ (text : String) (cs : Nat),
      "" ∈ split_text_into_chunks text cs ↔
        ∃ s ∈ splitSentences text.data, cs < s.length ∧
          ∃ w l, pySplit s = w :: l ∧ cs ≤ w.length) ∧
    split_text_into_chunks (String.mk (List.replicate 1000 'a')) 800 =
      ["", String.mk (List.replicate 1000 'a')] := by
  constructor
  · intro text cs
    constructor
    · intro hmem
      by_contra hno
      have hno' : ∀ s ∈ splitSentences text.data,
          ¬ (cs < s.length ∧ ∃ w l, pySplit s = w :: l ∧ cs ≤ w.length) := by
        intro s hsm hP
        exact hno ⟨s, hsm, hP⟩
      by_cases ht : text = ""
      · rw [ht] at hmem
        simp [split_text_into_chunks] at hmem
      · simp only [split_text_into_chunks, if_neg ht] at hmem
        obtain ⟨a, ha, hae⟩ := List.mem_map.mp hmem
        have ha0 : a = [] := congrArg String.data hae
        rw [ha0] at ha
        exact sentfold_no_empty cs (splitSentences text.data) [] []
          (fun s hsm => ssAux_dropLast_nonws text.data false false [] []
            (fun s' h' => absurd h' (List.not_mem_nil s')) (fun h => nomatch h) s hsm)
          hno' (fun x hx => absurd hx (List.not_mem_nil x))
          (fun _ _ => rfl) [] ha rfl
    · rintro ⟨s, hsmem, hlen, w, l, hw, hcs⟩
      have ht : text ≠ "" := by
        intro h
        subst h
        have hs0 : s = [] := by
          have : splitSentences (("" : String).data) = [[]] := rfl
          rw [this] at hsmem
          exact List.mem_singleton.mp hsmem
        rw [hs0] at hlen
        exact Nat.not_lt_zero cs hlen
      obtain ⟨l1, l2, hsplit⟩ := List.append_of_mem hsmem
      simp only [split_text_into_chunks, if_neg ht]
      refine List.mem_map.mpr ⟨[], ?_, rfl⟩
      rw [hsplit, List.foldl_append, List.foldl_cons]
      have hemit : [] ∈ (sentStep cs (l1.foldl (sentStep cs) ([], [])) s).1 :=
        bad_sentence_emits cs s hlen w l hw hcs _
      have hrest : [] ∈
          (l2.foldl (sentStep cs) (sentStep cs (l1.foldl (sentStep cs) ([], [])) s)).1 :=
        sentStep_fold_mem cs l2 _ [] hemit
      by_cases hm : pyStrip
          (l2.foldl (sentStep cs) (sentStep cs (l1.foldl (sentStep cs) ([], [])) s)).2 ≠ []
      · rw [if_pos hm]
        exact List.mem_append_left _ hrest
      · rw [if_neg hm]
        exact hrest
  · decide

/-- C6: for a document with at least one heading, (1) the intro span, the
heading marker lines and the body spans splice back together to the exact
document — no body character outside heading lines is lost or duplicated —
and (2) the concatenated contents of the returned sections equal the
document with the heading marker lines removed and each section span
whitespace-trimmed. -/
theorem C6_sections_reassemble (content : String)
    (h : headingsOf content.data ≠ []) :
    sliceL content.data 0 (((headingsOf content.data).map (fun y => y.1)).headD 0) ++
        spliceFrom content.data ((headingsOf content.data).map (fun y => y.1)) =
      content.data ∧
    sectionsContent (split_content_into_sections content) =
      pyStrip (sliceL content.data 0
          (((headingsOf content.data).map (fun y => y.1)).headD 0)) ++
        (strippedBodies content.data
          ((headingsOf content.data).map (fun y => y.1))).flatten := by
  have heq := headingsOf_eq_findHeadings content.data
  have hsound : ∀ y ∈ headingsOf content.data,
      lineStart content.data y.1 = true ∧ y.1 < content.data.length := by
    intro y hy
    rw [heq] at hy
    obtain ⟨h1, h2, _⟩ := findHeadingsAux_sound content.data (content.data.length + 1) 0 y hy
    exact ⟨h1, h2⟩
  have hchain : List.Chain' (fun a b => a.1 < b.1) (headingsOf content.data) := by
    rw [heq]
    exact findHeadingsAux_chain content.data _ 0
  cases hcs : headingsOf content.data with
  | nil => exact absurd hcs h
  | cons x rest =>
    obtain ⟨p0, n0, t0⟩ := x
    rw [hcs] at hsound hchain
    have hmem' : ∀ p ∈ p0 :: rest.map (fun y => y.1),
        p < content.data.length ∧ lineStart content.data p = true := by
      intro p hp
      obtain ⟨y, hy, hyp⟩ := List.mem_map.mp
        (show p ∈ ((p0, n0, t0) :: rest).map (fun y => y.1) from hp)
      obtain ⟨h1, h2⟩ := hsound y hy
      rw [← hyp]
      exact ⟨h2, h1⟩
    have hchain' : List.Chain' (fun a b => a < b) (p0 :: rest.map (fun y => y.1)) :=
      (List.chain'_map _).mpr hchain
    have hp0len : p0 ≤ content.data.length :=
      Nat.le_of_lt (hmem' p0 (List.mem_cons_self _ _)).1
    constructor
    · rw [show ((p0, n0, t0) :: rest).map (fun y => y.1) =
          p0 :: rest.map (fun y => y.1) from rfl]
      rw [show (p0 :: rest.map (fun y => y.1)).headD 0 = p0 from rfl]
      rw [spliceFrom_eq content.data p0 (rest.map (fun y => y.1)) hmem' hchain']
      exact (sliceL_append content.data (Nat.zero_le p0) hp0len).trans
        (sliceL_zero_len content.data)
    · rw [show ((p0, n0, t0) :: rest).map (fun y => y.1) =
          p0 :: rest.map (fun y => y.1) from rfl]
      rw [show (p0 :: rest.map (fun y => y.1)).headD 0 = p0 from rfl]
      have hbne : buildSections content.data ((p0, n0, t0) :: rest) ≠ [] := by
        cases rest <;> simp [buildSections]
      simp only [split_content_into_sections]
      rw [hcs]
      show sectionsContent
          (if ((if pyStrip (sliceL content.data 0 p0) ≠ [] then
                [(⟨none, String.mk (pyStrip (sliceL content.data 0 p0)), 0⟩ : Sect)]
              else []) ++ buildSections content.data ((p0, n0, t0) :: rest)) = []
           then [⟨none, String.mk (pyStrip content.data), 0⟩]
           else (if pyStrip (sliceL content.data 0 p0) ≠ [] then
                [(⟨none, String.mk (pyStrip (sliceL content.data 0 p0)), 0⟩ : Sect)]
              else []) ++ buildSections content.data ((p0, n0, t0) :: rest)) =
        pyStrip (sliceL content.data 0 p0) ++
          (strippedBodies content.data (p0 :: rest.map (fun y => y.1))).flatten
      rw [if_neg (fun hcontra => hbne (List.append_eq_nil.mp hcontra).2)]
      by_cases hic : pyStrip (sliceL content.data 0 p0) ≠ []
      · rw [if_pos hic]
        rw [sectionsContent_append, buildSections_content]
        rw [show sectionsContent [(⟨none, String.mk (pyStrip (sliceL content.data 0 p0)), 0⟩ :
            Sect)] = pyStrip (sliceL content.data 0 p0) from by
          simp [sectionsContent]]
        rfl
      · rw [if_neg hic]
        rw [List.nil_append, buildSections_content]
        rw [show pyStrip (sliceL content.data 0 p0) = [] from by
          by_contra hx
          exact hic hx]
        rw [List.nil_append]
        rfl

/-- Witness for C6 at a concrete two-heading document. -/
theorem C6_witness :
    sliceL ("Intro\n== A ==\nBody A\n=== B ===\nBody B" : String).data 0
        (((headingsOf ("Intro\n== A ==\nBody A\n=== B ===\nBody B" : String).data).map
          (fun y => y.1)).headD 0) ++
      spliceFrom ("Intro\n== A ==\nBody A\n=== B ===\nBody B" : String).data
        ((headingsOf ("Intro\n== A ==\nBody A\n=== B ===\nBody B" : String).data).map
          (fun y => y.1)) =
      ("Intro\n== A ==\nBody A\n=== B ===\nBody B" : String).data ∧
    sectionsContent (split_content_into_sections "Intro\n== A ==\nBody A\n=== B ===\nBody B") =
      pyStrip (sliceL ("Intro\n== A ==\nBody A\n=== B ===\nBody B" : String).data 0
          (((headingsOf ("Intro\n== A ==\nBody A\n=== B ===\nBody B" : String).data).map
            (fun y => y.1)).headD 0)) ++
        (strippedBodies ("Intro\n== A ==\nBody A\n=== B ===\nBody B" : String).data
          ((headingsOf ("Intro\n== A ==\nBody A\n=== B ===\nBody B" : String).data).map
            (fun y => y.1))).flatten :=
  C6_sections_reassemble "Intro\n== A ==\nBody A\n=== B ===\nBody B" (by decide)

/-- Counterexample to C7: the heading pattern has no closing line anchor,
so the line "== T == x" — which is not of the exact closed shape — is
still detected as a heading (title "T") and is not treated as ordinary
content: the parser produces a titled section from it. -/
theorem C7_counterexample :
    headingsOf ("== T == x\nbody" : String).data = [(0, 2, "T".data)] ∧
      specExactHeadingLine (sliceL ("== T == x\nbody" : String).data 0
        (lineEnd ("== T == x\nbody" : String).data 0)) = false ∧
      split_content_into_sections "== T == x\nbody" = [⟨some "T", "body", 2⟩] := by
  decide

/-- C7 (amended): heading detection is anchored at the line start only:
every detected heading begins at a line boundary and its matched span is
`N` delimiters (2 ≤ N ≤ 6), optional whitespace, a newline-free lazy
title, optional whitespace, and the same `N` delimiters — but text may
follow the closing delimiters on the same line, and such lines are still
detected as headings.  A match never starts in the middle of a line. -/
theorem C7_heading_match_shape (content : String) (p n : Nat) (t : List Char)
    (hmem : (p, n, t) ∈ headingsOf content.data) :
    lineStart content.data p = true ∧ 2 ≤ n ∧ n ≤ 6 ∧
      ∃ w1 w2 e, (∀ c ∈ w1, pyIsWs c = true) ∧ (∀ c ∈ w2, pyIsWs c = true) ∧
        (∀ c ∈ t, c ≠ '\n') ∧ e ≤ content.data.length ∧
        sliceL content.data p e =
          List.replicate n '=' ++ w1 ++ t ++ w2 ++ List.replicate n '=' := by
  rw [headingsOf_eq_findHeadings] at hmem
  obtain ⟨hls, hplen, e, hm⟩ :=
    findHeadingsAux_sound content.data (content.data.length + 1) 0 (p, n, t) hmem
  obtain ⟨h2n, h6n, hceq, w1n, tln, w2n, hw1, htl, hw2, ht, hee, hE⟩ :=
    matchHeadingAt_sound hm
  dsimp only at hls hplen h2n h6n hceq hw1 htl hw2 ht hee hE
  refine ⟨hls, h2n, h6n,
    sliceL content.data (p + n) (p + n + w1n),
    sliceL content.data (p + n + w1n + tln) (p + n + w1n + tln + w2n), e,
    ?_, ?_, ?_, ?_, ?_⟩
  · intro c hc
    exact slice_all_of_le_takeWhile hw1 c hc
  · intro c hc
    exact slice_all_of_le_takeWhile hw2 c hc
  · intro c hc
    rw [ht] at hc
    have := slice_all_of_le_takeWhile htl c hc
    simpa using this
  · have := run_end_le_length hee (by omega)
    omega
  · have hsplit : sliceL content.data p e =
        sliceL content.data p (p + n) ++
        sliceL content.data (p + n) (p + n + w1n) ++
        sliceL content.data (p + n + w1n) (p + n + w1n + tln) ++
        sliceL content.data (p + n + w1n + tln) (p + n + w1n + tln + w2n) ++
        sliceL content.data (p + n + w1n + tln + w2n) e := by
      rw [sliceL_append content.data (by omega) (by omega),
        sliceL_append content.data (by omega) (by omega),
        sliceL_append content.data (by omega) (by omega),
        sliceL_append content.data (by omega) (by omega)]
    have hlast : sliceL content.data (p + n + w1n + tln + w2n) e =
        List.replicate n '=' := by
      rw [show e = p + n + w1n + tln + w2n + n from hE]
      exact slice_eq_run hee
    rw [hsplit, slice_eq_run hceq, hlast, ht]

/-- Witness for the amended C7 at a concrete heading with trailing
text. -/
theorem C7_witness :
    lineStart ("== A ==\nx" : String).data 0 = true ∧ 2 ≤ 2 ∧ 2 ≤ 6 ∧
      ∃ w1 w2 e, (∀ c ∈ w1, pyIsWs c = true) ∧ (∀ c ∈ w2, pyIsWs c = true) ∧
        (∀ c ∈ "A".data, c ≠ '\n') ∧ e ≤ ("== A ==\nx" : String).data.length ∧
        sliceL ("== A ==\nx" : String).data 0 e =
          List.replicate 2 '=' ++ w1 ++ "A".data ++ w2 ++ List.replicate 2 '=' :=
  C7_heading_match_shape "== A ==\nx" 0 2 ("A".data) (by decide)

/-- C4 (code bug): chunking does not always preserve word order.  When a
sentence-level accumulator is non-empty and an oversized sentence
arrives, the word-split sub-chunks are appended to `chunks` before the
accumulator is flushed, and the final sub-chunk is merged back into the
accumulator, so the joined output permutes the input's words.  At the
failing input below the first sentence "Aa." reappears after the
oversized sentence's sub-chunks. -/
theorem C4_chunking_reorders_words :
    split_text_into_chunks "Aa. bbb ccc ddd" 5 = ["bbb", "ccc", "Aa. ddd"] ∧
      pySplit (joinSpace (split_text_into_chunks "Aa. bbb ccc ddd" 5)).data ≠
        pySplit "Aa. bbb ccc ddd".data := by
  decide

/-- C5 (code bug): a chunk may exceed `maxSize` without being a single
unsplittable word: word-split remainders merged back into the accumulator
let it grow past `maxSize` before it is flushed.  At the failing input the
chunk "cc. cc" has length 6 > 5 and consists of two words of length 3
and 2. -/
theorem C5_chunk_exceeds_max_size :
    split_text_into_chunks "aa bb cc. aa bb cc" 5 = ["aa", "bb", "aa", "bb", "cc. cc"] ∧
      ("cc. cc" : String).length = 6 ∧
      pySplit ("cc. cc" : String).data = ["cc.".data, "cc".data] ∧
      (∀ w ∈ pySplit ("cc. cc" : String).data, w.length ≤ 5) := by
  decide

/-- C9: with the worker cap `min(12, numberOfChunks)` set by the source,
every reachable state of the fixed-size worker pool has at most
`min(12, numberOfChunks)` translation calls in flight. -/
theorem C9_bounded_parallelism (text : String) (s : PoolState)
    (_h200 : 200 ≤ text.length)
    (_hch : split_text_into_chunks text 800 ≠ [])
    (hr : Relation.ReflTransGen (PoolStep (max_workers text))
      (initPool (split_text_into_chunks text 800).length) s) :
    s.running.length ≤ min 12 (split_text_into_chunks text 800).length :=
  pool_invariant (max_workers text) (by simp [initPool]) hr

/-- Witness for C9 at a concrete chunked input and the initial state. -/
theorem C9_witness :
    (initPool (split_text_into_chunks (String.mk (List.replicate 210 'a')) 800).length).running.length ≤
      min 12 (split_text_into_chunks (String.mk (List.replicate 210 'a')) 800).length :=
  C9_bounded_parallelism (String.mk (List.replicate 210 'a')) _
    (by decide) (by decide) Relation.ReflTransGen.refl
